import Mathlib

/-!
Offset-index lookup of `klog` (`src/klog/cmd/log.go`).

A shallow embedding of the index scan (`getPosFromIndex`), the window
extraction of `readLogFromIndex` and the path helper `replaceExtension`.

Modelling conventions:

* a file is the list of its bytes; a Go `string` is the list of its bytes;
* `uint32` values are natural numbers, the subtraction that may wrap is
  written with an explicit `% 2 ^ 32`;
* one `file.Read(buf)` on a regular file delivers the next
  `min (len buf) (min maxRW remaining)` bytes, where `maxRW = 1 << 30` is the
  cap that `os.File.Read` puts on a single read;
* `int` is 64 bits wide, so `int(size)` is `size`;
* opening and seeking never fail (the files exist and are readable).
-/

namespace Klog

deriving instance DecidableEq for Except

/-- A byte of a file or of a Go string. -/
abbrev Byte := Fin 256

/-- The three errors created with `errors.New` in `getPosFromIndex` and
`readLogFromIndex`, named after their messages. -/
inductive LogError where
  /-- The error "EOF : offset not found in the interval". -/
  | eofNotFound
  /-- The error "Offset = 0 : not found in the interval". -/
  | zeroOffset
  /-- The error "Read smaller message than expected". -/
  | shortRead
  deriving DecidableEq, Repr

/-- The message carried by each error value. -/
def LogError.message : LogError → String
  | .eofNotFound => "EOF : offset not found in the interval"
  | .zeroOffset => "Offset = 0 : not found in the interval"
  | .shortRead => "Read smaller message than expected"

/-- The Go struct `offsetPos` with its two `uint32` fields. -/
structure offsetPos where
  offset : Nat
  pos : Nat
  deriving DecidableEq, Repr

/-- The call `binary.BigEndian.Uint32` of the Go standard library on a four
byte slice: `uint32(b[3]) | uint32(b[2])<<8 | uint32(b[1])<<16 | uint32(b[0])<<24`. -/
def Uint32 (b0 b1 b2 b3 : Byte) : Nat :=
  b3.val ||| b2.val <<< 8 ||| b1.val <<< 16 ||| b0.val <<< 24

/-- The `for` loop of `getPosFromIndex` (lines 215-230).  The last argument is
the unread rest of the index file; `newops` and `opsm1` are the two loop
variables.  A `Read` that delivers fewer than eight bytes ends the scan with
the end-of-file error. -/
def getPosLoop (wantedOffset : Nat) :
    offsetPos → offsetPos → List Byte → Except LogError (offsetPos × offsetPos)
  | newops, _, b0 :: b1 :: b2 :: b3 :: b4 :: b5 :: b6 :: b7 :: rest =>
    let offset := Uint32 b0 b1 b2 b3
    if offset = 0 then
      .error .zeroOffset
    else
      let pos := Uint32 b4 b5 b6 b7
      let opsm1 := newops
      let newops : offsetPos := ⟨offset, pos⟩
      if offset > wantedOffset then
        .ok (opsm1, newops)
      else
        getPosLoop wantedOffset newops opsm1 rest
  | _, _, _ => .error .eofNotFound

/-- The function `getPosFromIndex` on the content of the index file: both loop
variables start at `offsetPos{0, 0}`. -/
def getPosFromIndex (file : List Byte) (wantedOffset : Nat) :
    Except LogError (offsetPos × offsetPos) :=
  getPosLoop wantedOffset ⟨0, 0⟩ ⟨0, 0⟩ file

/-- The value of `to.pos - from.pos` in `uint32` arithmetic (line 255). -/
def windowSize (src dst : offsetPos) : Nat :=
  (dst.pos + 2 ^ 32 - src.pos) % 2 ^ 32

/-- The constant `maxRW = 1 << 30` of the Go package `internal/poll`: a
single `Read` of an `os.File` is cut down to this many bytes
(`if fd.IsStream && len(p) > maxRW { p = p[:maxRW] }`, and `os` opens every
file with `IsStream` set). -/
def maxRW : Nat := 2 ^ 30

/-- One `Read` into a fresh zeroed buffer of `size` bytes after a `Seek` to
`pos`: the buffer after the call and the number of bytes read.  The call
delivers the bytes left in the file, at most `size` and at most `maxRW`. -/
def readAt (segment : List Byte) (pos size : Nat) : List Byte × Nat :=
  let got := (segment.drop pos).take (min size maxRW)
  (got ++ List.replicate (size - got.length) 0, got.length)

/-- Lines 250-260 of `readLogFromIndex`: seek to `from.pos`, read
`to.pos - from.pos` bytes, fail on a short read.  The result is the buffer
`buff` that the function then writes to the temporary file. -/
def extractWindow (segment : List Byte) (src dst : offsetPos) :
    Except LogError (List Byte) :=
  let size := windowSize src dst
  let (buff, n) := readAt segment src.pos size
  if n < size then .error .shortRead else .ok buff

/-- The function `readLogFromIndex` up to the extraction of the window
(lines 239-260), on the contents of the index file and of the segment file. -/
def readLogFromIndex (index segment : List Byte) (wantedOffset : Nat) :
    Except LogError (List Byte) :=
  match getPosFromIndex index wantedOffset with
  | .error err => .error err
  | .ok (src, dst) => extractWindow segment src dst

/-- The records of an index file: the decoded complete eight byte chunks,
in file order from byte 0. -/
def entriesOf : List Byte → List offsetPos
  | b0 :: b1 :: b2 :: b3 :: b4 :: b5 :: b6 :: b7 :: rest =>
    ⟨Uint32 b0 b1 b2 b3, Uint32 b4 b5 b6 b7⟩ :: entriesOf rest
  | _ => []

/-- The scan of `getPosLoop` read off the decoded records: `prev` is the
record read last (the loop variable `newops`). -/
def scanEntries (wantedOffset : Nat) :
    offsetPos → List offsetPos → Except LogError (offsetPos × offsetPos)
  | _, [] => .error .eofNotFound
  | prev, e :: es =>
    if e.offset = 0 then .error .zeroOffset
    else if e.offset > wantedOffset then .ok (prev, e)
    else scanEntries wantedOffset e es

/-- An index whose records are non-decreasing in both fields. -/
def validIndex (es : List offsetPos) : Prop :=
  es.Pairwise (fun a b => a.offset ≤ b.offset ∧ a.pos ≤ b.pos)

instance (es : List offsetPos) : Decidable (validIndex es) := by
  unfold validIndex; infer_instance

/-- The byte `'.'`. -/
def dot : Byte := 46

/-- The byte `'/'`, the path separator tested by `os.IsPathSeparator`. -/
def sep : Byte := 47

/-- The bytes of a string literal of ASCII characters. -/
def str (s : String) : List Byte :=
  s.data.map (fun c => Fin.ofNat c.toNat)

/-- The loop of `filepath.Ext` of the Go standard library: `n` is `i + 1` for
the loop index `i`, which runs from `len(path) - 1` down to `0` and stops at
a path separator. -/
def extLoop (path : List Byte) : Nat → List Byte
  | 0 => []
  | i + 1 =>
    match path[i]? with
    | none => []
    | some c =>
      if c = sep then []
      else if c = dot then path.drop i
      else extLoop path i

/-- The function `filepath.Ext`: the suffix beginning at the final dot in the
final element of `path`, empty if there is no dot. -/
def Ext (path : List Byte) : List Byte :=
  extLoop path path.length

/-- The function `strings.HasSuffix`:
`len(s) >= len(suffix) && s[len(s)-len(suffix):] == suffix`. -/
def HasSuffix (s suffix : List Byte) : Bool :=
  decide (s.length ≥ suffix.length) && (s.drop (s.length - suffix.length) == suffix)

/-- The function `strings.TrimSuffix`. -/
def TrimSuffix (s suffix : List Byte) : List Byte :=
  if HasSuffix s suffix then s.take (s.length - suffix.length) else s

/-- The function `replaceExtension` (line 278). -/
def replaceExtension (filename extension : List Byte) : List Byte :=
  TrimSuffix filename (Ext filename) ++ extension

/-- The scan of `extLoop` read off the bytes before the loop index, last byte
first, with the bytes already passed in `seen`. -/
def extScan : List Byte → List Byte → List Byte
  | [], _ => []
  | c :: before, seen =>
    if c = sep then []
    else if c = dot then c :: seen
    else extScan before (c :: seen)

/-- The final element of a path: the bytes after the last separator. -/
def finalElement (path : List Byte) : List Byte :=
  (path.reverse.takeWhile (fun c => decide (c ≠ sep))).reverse

/-- The index with the records `(0,0)`, `(100,50)`, `(250,120)`. -/
def indexZeroHead : List Byte :=
  [0, 0, 0, 0, 0, 0, 0, 0, 0, 0, 0, 100, 0, 0, 0, 50, 0, 0, 0, 250, 0, 0, 0, 120]

/-- The index with the records `(100,50)`, `(250,120)`. -/
def indexNoZero : List Byte :=
  [0, 0, 0, 100, 0, 0, 0, 50, 0, 0, 0, 250, 0, 0, 0, 120]

/-- An unsorted index with the records `(100,50)`, `(50,70)`, `(250,120)`,
`(200,130)`. -/
def indexUnsorted : List Byte :=
  [0, 0, 0, 100, 0, 0, 0, 50, 0, 0, 0, 50, 0, 0, 0, 70,
   0, 0, 0, 250, 0, 0, 0, 120, 0, 0, 0, 200, 0, 0, 0, 130]

/-- The index with the records `(0,0)`, `(0,0)`. -/
def indexTwoZero : List Byte :=
  [0, 0, 0, 0, 0, 0, 0, 0, 0, 0, 0, 0, 0, 0, 0, 0]

/-- An index whose byte positions go backwards: records `(100,100)`, `(250,80)`. -/
def indexBackwards : List Byte :=
  [0, 0, 0, 100, 0, 0, 0, 100, 0, 0, 0, 250, 0, 0, 0, 80]

/-- An index with the records `(258,772)`, `(66051,67438087)`. -/
def indexWide : List Byte :=
  [0, 0, 1, 2, 0, 0, 3, 4, 0, 1, 2, 3, 4, 5, 6, 7]

/-- A segment of ten bytes `0, 1, .., 9`. -/
def segmentTen : List Byte := [0, 1, 2, 3, 4, 5, 6, 7, 8, 9]

/-- A segment of two hundred bytes. -/
def segmentSmall : List Byte := List.replicate 200 7

/-- An index with the records `(100,0)`, `(250,1073741825)`: the second
position is `2 ^ 30 + 1`. -/
def indexGiB : List Byte :=
  [0, 0, 0, 100, 0, 0, 0, 0, 0, 0, 0, 250, 64, 0, 0, 1]

/-- A segment of `1073741925 = 2 ^ 30 + 101` bytes. -/
def segmentGiB : List Byte := List.replicate 1073741925 7

/-! ## Decoding -/

theorem Uint32_eq (b0 b1 b2 b3 : Byte) :
    Uint32 b0 b1 b2 b3 = b0.val * 2 ^ 24 + b1.val * 2 ^ 16 + b2.val * 2 ^ 8 + b3.val := by
  have h0 := b0.isLt
  have h1 := b1.isLt
  have h2 := b2.isLt
  have h3 := b3.isLt
  have e1 : b3.val ||| b2.val <<< 8 = 2 ^ 8 * b2.val + b3.val := by
    rw [Nat.shiftLeft_eq, Nat.lor_comm, Nat.mul_comm]
    exact (Nat.mul_add_lt_is_or (by omega) _).symm
  have e2 : (2 ^ 8 * b2.val + b3.val) ||| b1.val <<< 16
      = 2 ^ 16 * b1.val + (2 ^ 8 * b2.val + b3.val) := by
    rw [Nat.shiftLeft_eq, Nat.lor_comm, Nat.mul_comm]
    exact (Nat.mul_add_lt_is_or (by omega) _).symm
  have e3 : (2 ^ 16 * b1.val + (2 ^ 8 * b2.val + b3.val)) ||| b0.val <<< 24
      = 2 ^ 24 * b0.val + (2 ^ 16 * b1.val + (2 ^ 8 * b2.val + b3.val)) := by
    rw [Nat.shiftLeft_eq, Nat.lor_comm, Nat.mul_comm]
    exact (Nat.mul_add_lt_is_or (by omega) _).symm
  unfold Uint32
  rw [e1, e2, e3]
  omega

theorem Uint32_lt (b0 b1 b2 b3 : Byte) : Uint32 b0 b1 b2 b3 < 2 ^ 32 := by
  rw [Uint32_eq]
  have h0 := b0.isLt
  have h1 := b1.isLt
  have h2 := b2.isLt
  have h3 := b3.isLt
  omega

/-! ## The loop on bytes and the scan on records -/

theorem entriesOf_cons8 (b0 b1 b2 b3 b4 b5 b6 b7 : Byte) (rest : List Byte) :
    entriesOf (b0 :: b1 :: b2 :: b3 :: b4 :: b5 :: b6 :: b7 :: rest)
      = ⟨Uint32 b0 b1 b2 b3, Uint32 b4 b5 b6 b7⟩ :: entriesOf rest := by
  rw [entriesOf]

theorem entriesOf_short (file : List Byte) (h : file.length < 8) : entriesOf file = [] := by
  rcases file with _ | ⟨b0, _ | ⟨b1, _ | ⟨b2, _ | ⟨b3, _ | ⟨b4, _ | ⟨b5, _ | ⟨b6, _ | ⟨b7, rest⟩⟩⟩⟩⟩⟩⟩⟩
  all_goals first
    | (simp at h; omega)
    | simp [entriesOf]

theorem getPosLoop_short (w : Nat) (n o : offsetPos) (file : List Byte) (h : file.length < 8) :
    getPosLoop w n o file = .error .eofNotFound := by
  rcases file with _ | ⟨b0, _ | ⟨b1, _ | ⟨b2, _ | ⟨b3, _ | ⟨b4, _ | ⟨b5, _ | ⟨b6, _ | ⟨b7, rest⟩⟩⟩⟩⟩⟩⟩⟩
  all_goals first
    | (simp at h; omega)
    | simp [getPosLoop]

theorem getPosLoop_cons8 (w : Nat) (n o : offsetPos) (b0 b1 b2 b3 b4 b5 b6 b7 : Byte)
    (rest : List Byte) :
    getPosLoop w n o (b0 :: b1 :: b2 :: b3 :: b4 :: b5 :: b6 :: b7 :: rest)
      = if Uint32 b0 b1 b2 b3 = 0 then .error .zeroOffset
        else if Uint32 b0 b1 b2 b3 > w then
          .ok (n, ⟨Uint32 b0 b1 b2 b3, Uint32 b4 b5 b6 b7⟩)
        else getPosLoop w ⟨Uint32 b0 b1 b2 b3, Uint32 b4 b5 b6 b7⟩ n rest := by
  rw [getPosLoop]

/-- Either a file is shorter than one record, or it starts with eight bytes. -/
theorem short_or_cons8 (file : List Byte) :
    file.length < 8 ∨ ∃ b0 b1 b2 b3 b4 b5 b6 b7 rest,
      file = b0 :: b1 :: b2 :: b3 :: b4 :: b5 :: b6 :: b7 :: rest := by
  rcases file with _ | ⟨b0, _ | ⟨b1, _ | ⟨b2, _ | ⟨b3, _ | ⟨b4, _ | ⟨b5, _ | ⟨b6, _ | ⟨b7, rest⟩⟩⟩⟩⟩⟩⟩⟩
  all_goals first
    | (left; simp; done)
    | (right; exact ⟨_, _, _, _, _, _, _, _, _, rfl⟩)

theorem getPosLoop_eq_scan_aux (w len : Nat) :
    ∀ (file : List Byte), file.length ≤ len →
      ∀ n o : offsetPos, getPosLoop w n o file = scanEntries w n (entriesOf file) := by
  induction len with
  | zero =>
    intro file hlen n o
    have h : file.length < 8 := by omega
    rw [getPosLoop_short w n o file h, entriesOf_short file h, scanEntries]
  | succ len ih =>
    intro file hlen n o
    rcases short_or_cons8 file with h | ⟨b0, b1, b2, b3, b4, b5, b6, b7, rest, rfl⟩
    · rw [getPosLoop_short w n o file h, entriesOf_short file h, scanEntries]
    · rw [getPosLoop_cons8, entriesOf_cons8, scanEntries]
      have hr : rest.length ≤ len := by simp at hlen; omega
      rw [ih rest hr]

theorem getPosLoop_eq_scan (w : Nat) (file : List Byte) (n o : offsetPos) :
    getPosLoop w n o file = scanEntries w n (entriesOf file) :=
  getPosLoop_eq_scan_aux w file.length file (Nat.le_refl _) n o

theorem getPosFromIndex_eq_scan (file : List Byte) (w : Nat) :
    getPosFromIndex file w = scanEntries w ⟨0, 0⟩ (entriesOf file) :=
  getPosLoop_eq_scan w file _ _

/-! ## Properties of the scan on records -/

theorem scanEntries_ok (w : Nat) (es : List offsetPos) :
    ∀ (prev lo up : offsetPos), scanEntries w prev es = .ok (lo, up) →
      ∃ k, es[k]? = some up ∧ w < up.offset ∧
        (∀ j, j < k → ∀ e, es[j]? = some e → e.offset ≤ w) ∧
        ((k = 0 ∧ lo = prev) ∨ ∃ j, k = j + 1 ∧ es[j]? = some lo) := by
  induction es with
  | nil => intro prev lo up h; simp [scanEntries] at h
  | cons e es ih =>
    intro prev lo up h
    rw [scanEntries] at h
    by_cases h0 : e.offset = 0
    · simp [h0] at h
    · rw [if_neg h0] at h
      by_cases hw : e.offset > w
      · rw [if_pos hw] at h
        injection h with h
        injection h with h1 h2
        subst h1 h2
        exact ⟨0, by simp, hw, fun j hj => absurd hj (Nat.not_lt_zero j), Or.inl ⟨rfl, rfl⟩⟩
      · rw [if_neg hw] at h
        obtain ⟨k, hk, hup, hbefore, hlo⟩ := ih e lo up h
        refine ⟨k + 1, by simpa using hk, hup, ?_, ?_⟩
        · intro j hj e1 he1
          cases j with
          | zero =>
            simp at he1
            subst he1
            omega
          | succ j =>
            simp at he1
            exact hbefore j (by omega) e1 he1
        · right
          rcases hlo with ⟨hk0, hlo⟩ | ⟨j, hj, hlo⟩
          · exact ⟨0, by omega, by simp [hlo]⟩
          · exact ⟨j + 1, by omega, by simpa using hlo⟩

theorem scanEntries_succeeds (w : Nat) (es : List offsetPos) :
    ∀ (prev : offsetPos), (∀ e ∈ es, e.offset ≠ 0) → (∃ e ∈ es, w < e.offset) →
      ∃ lo up, scanEntries w prev es = .ok (lo, up) := by
  induction es with
  | nil => intro prev _ h; simp at h
  | cons e es ih =>
    intro prev hnz hmax
    rw [scanEntries, if_neg (hnz e (List.mem_cons_self _ _))]
    by_cases hw : e.offset > w
    · rw [if_pos hw]; exact ⟨_, _, rfl⟩
    · rw [if_neg hw]
      apply ih e (fun x hx => hnz x (List.mem_cons_of_mem _ hx))
      obtain ⟨x, hx, hxw⟩ := hmax
      rcases List.mem_cons.mp hx with rfl | hx
      · exact absurd hxw hw
      · exact ⟨x, hx, hxw⟩

theorem scanEntries_zero (w : Nat) (es : List offsetPos) :
    ∀ (prev : offsetPos) (k : Nat) (z : offsetPos), es[k]? = some z → z.offset = 0 →
      (∀ j, j < k → ∀ e, es[j]? = some e → e.offset ≤ w) →
      scanEntries w prev es = .error .zeroOffset := by
  induction es with
  | nil => intro prev k z h; simp at h
  | cons e es ih =>
    intro prev k z hk hz hbefore
    rw [scanEntries]
    by_cases h0 : e.offset = 0
    · rw [if_pos h0]
    · rw [if_neg h0]
      cases k with
      | zero =>
        simp at hk
        subst hk
        exact absurd hz h0
      | succ k =>
        have hle : e.offset ≤ w := hbefore 0 (by omega) e (by simp)
        rw [if_neg (by omega)]
        apply ih e k z (by simpa using hk) hz
        intro j hj e1 he1
        exact hbefore (j + 1) (by omega) e1 (by simpa using he1)

theorem scanEntries_exhausted (w : Nat) (es : List offsetPos) :
    ∀ (prev : offsetPos), (∀ e ∈ es, e.offset ≠ 0 ∧ e.offset ≤ w) →
      scanEntries w prev es = .error .eofNotFound := by
  induction es with
  | nil => intro prev _; rw [scanEntries]
  | cons e es ih =>
    intro prev h
    obtain ⟨h0, hle⟩ := h e (List.mem_cons_self _ _)
    rw [scanEntries, if_neg h0, if_neg (by omega)]
    exact ih e (fun x hx => h x (List.mem_cons_of_mem _ hx))

/-- In a valid index no record has a smaller offset than the first one. -/
theorem validIndex_head_le (es : List offsetPos) (hv : validIndex es) (a : offsetPos)
    (ha : es.head? = some a) : ∀ e ∈ es, a.offset ≤ e.offset := by
  cases es with
  | nil => simp at ha
  | cons b es =>
    simp at ha
    subst ha
    intro e he
    rcases List.mem_cons.mp he with rfl | he
    · exact Nat.le_refl _
    · exact ((List.pairwise_cons.mp hv).1 e he).1

/-- In a valid index no record has a larger offset than the last one. -/
theorem validIndex_le_last (es : List offsetPos) (hv : validIndex es) (l : offsetPos)
    (hl : es.getLast? = some l) : ∀ e ∈ es, e.offset ≤ l.offset := by
  induction es with
  | nil => simp at hl
  | cons a es ih =>
    have hp := List.pairwise_cons.mp hv
    cases es with
    | nil =>
      simp at hl
      subst hl
      intro e he
      simp at he
      subst he
      exact Nat.le_refl _
    | cons b es =>
      rw [List.getLast?_cons_cons] at hl
      intro e he
      rcases List.mem_cons.mp he with rfl | he
      · exact (hp.1 l (List.mem_of_getLast?_eq_some hl)).1
      · exact ih hp.2 hl e he

theorem entriesOf_get (k : Nat) :
    ∀ (file : List Byte) (e : offsetPos), (entriesOf file)[k]? = some e →
      ∃ b0 b1 b2 b3 b4 b5 b6 b7,
        (file.drop (8 * k)).take 8 = [b0, b1, b2, b3, b4, b5, b6, b7] ∧
        e = ⟨Uint32 b0 b1 b2 b3, Uint32 b4 b5 b6 b7⟩ := by
  induction k with
  | zero =>
    intro file e h
    rcases short_or_cons8 file with hs | ⟨b0, b1, b2, b3, b4, b5, b6, b7, rest, rfl⟩
    · rw [entriesOf_short file hs] at h; simp at h
    · rw [entriesOf_cons8] at h
      simp at h
      exact ⟨b0, b1, b2, b3, b4, b5, b6, b7, by simp, h.symm⟩
  | succ k ih =>
    intro file e h
    rcases short_or_cons8 file with hs | ⟨b0, b1, b2, b3, b4, b5, b6, b7, rest, rfl⟩
    · rw [entriesOf_short file hs] at h; simp at h
    · rw [entriesOf_cons8] at h
      simp at h
      obtain ⟨c0, c1, c2, c3, c4, c5, c6, c7, hc, he⟩ := ih rest e h
      refine ⟨c0, c1, c2, c3, c4, c5, c6, c7, ?_, he⟩
      have h8 : 8 * (k + 1) = 8 * k + 8 := by omega
      rw [h8]
      simpa using hc

theorem entriesOf_truncate_aux (len : Nat) :
    ∀ (file : List Byte), file.length ≤ len →
      entriesOf (file.take (8 * (file.length / 8))) = entriesOf file := by
  induction len with
  | zero =>
    intro file hlen
    have h : file.length < 8 := by omega
    rw [entriesOf_short file h, entriesOf_short _ (by simp; omega)]
  | succ len ih =>
    intro file hlen
    rcases short_or_cons8 file with h | ⟨b0, b1, b2, b3, b4, b5, b6, b7, rest, rfl⟩
    · rw [entriesOf_short file h, entriesOf_short _ (by simp; omega)]
    · have hl : (b0 :: b1 :: b2 :: b3 :: b4 :: b5 :: b6 :: b7 :: rest).length
          = rest.length + 8 := by simp
      have h8 : 8 * ((rest.length + 8) / 8) = 8 * (rest.length / 8) + 8 := by omega
      have hr : rest.length ≤ len := by simp at hlen; omega
      rw [hl, h8]
      simp only [List.take_succ_cons]
      rw [entriesOf_cons8, entriesOf_cons8, ih rest hr]

theorem entriesOf_truncate (file : List Byte) :
    entriesOf (file.take (8 * (file.length / 8))) = entriesOf file :=
  entriesOf_truncate_aux file.length file (Nat.le_refl _)

/-! ## The window -/

theorem extractWindow_eq (segment : List Byte) (src dst : offsetPos) :
    extractWindow segment src dst
      = if windowSize src dst ≤ maxRW ∧ windowSize src dst ≤ segment.length - src.pos then
          .ok ((segment.drop src.pos).take (windowSize src dst))
        else .error .shortRead := by
  unfold extractWindow readAt
  simp only [List.length_take, List.length_drop]
  by_cases h : windowSize src dst ≤ maxRW ∧ windowSize src dst ≤ segment.length - src.pos
  · rw [if_pos h, Nat.min_eq_left h.1, Nat.min_eq_left h.2, if_neg (Nat.lt_irrefl _),
      Nat.sub_self]
    simp
  · rw [if_neg h, if_pos]
    rcases Nat.lt_or_ge maxRW (windowSize src dst) with h1 | h1
    · exact Nat.lt_of_le_of_lt (Nat.min_le_left _ _)
        (Nat.lt_of_le_of_lt (Nat.min_le_right _ _) h1)
    · have h2 : segment.length - src.pos < windowSize src dst :=
        Nat.lt_of_not_le (fun h2 => h ⟨h1, h2⟩)
      exact Nat.lt_of_le_of_lt (Nat.min_le_right _ _) h2

/-- Up to `maxRW` bytes the window is exact: for a bracket with
`lower.pos ≤ upper.pos < 2 ^ 32` and `upper.pos - lower.pos ≤ maxRW`,
`extractWindow` yields `segment[lower.pos, upper.pos)` when that many bytes
are available from `lower.pos`, and the short-read error otherwise. -/
theorem extractWindow_exact_upto_maxRW (segment : List Byte) (lower upper : offsetPos)
    (hle : lower.pos ≤ upper.pos) (hupper : upper.pos < 2 ^ 32)
    (hcap : upper.pos - lower.pos ≤ maxRW) :
    (upper.pos - lower.pos ≤ segment.length - lower.pos →
      ∃ window, extractWindow segment lower upper = .ok window ∧
        window = (segment.drop lower.pos).take (upper.pos - lower.pos) ∧
        window.length = upper.pos - lower.pos ∧
        ∀ i, i < upper.pos - lower.pos → window[i]? = segment[lower.pos + i]?) ∧
    (segment.length - lower.pos < upper.pos - lower.pos →
      extractWindow segment lower upper = .error .shortRead) := by
  have hsize : windowSize lower upper = upper.pos - lower.pos := by
    unfold windowSize
    omega
  rw [extractWindow_eq, hsize]
  constructor
  · intro h
    rw [if_pos ⟨hcap, h⟩]
    refine ⟨_, rfl, rfl, ?_, ?_⟩
    · rw [List.length_take, List.length_drop]
      exact Nat.min_eq_left h
    · intro i hi
      rw [List.getElem?_take_of_lt hi, List.getElem?_drop]
  · intro h
    rw [if_neg (fun hc => absurd hc.2 (Nat.not_le_of_lt h))]

/-- The ten bytes `0 .. 9`: the bracket with positions `2` and `6` yields the
bytes `2, 3, 4, 5`; the bracket with positions `6` and `12` is a short read. -/
theorem extractWindow_exact_upto_maxRW_check :
    extractWindow segmentTen ⟨100, 2⟩ ⟨250, 6⟩ = .ok [2, 3, 4, 5] ∧
    (∃ window, extractWindow segmentTen ⟨100, 2⟩ ⟨250, 6⟩ = .ok window ∧
      window = (segmentTen.drop 2).take (6 - 2) ∧
      window.length = 6 - 2 ∧
      ∀ i, i < 6 - 2 → window[i]? = segmentTen[2 + i]?) ∧
    extractWindow segmentTen ⟨100, 6⟩ ⟨250, 12⟩ = .error .shortRead :=
  ⟨by decide,
   (extractWindow_exact_upto_maxRW segmentTen ⟨100, 2⟩ ⟨250, 6⟩
      (by decide) (by decide) (by decide)).1 (by decide),
   (extractWindow_exact_upto_maxRW segmentTen ⟨100, 6⟩ ⟨250, 12⟩
      (by decide) (by decide) (by decide)).2 (by decide)⟩

/-- Above `maxRW` bytes the window extraction always ends with the short-read
error, whatever the segment holds. -/
theorem extractWindow_above_maxRW (segment : List Byte) (lower upper : offsetPos)
    (hcap : maxRW < windowSize lower upper) :
    extractWindow segment lower upper = .error .shortRead := by
  rw [extractWindow_eq, if_neg (fun hc => absurd hc.1 (Nat.not_le_of_lt hcap))]

theorem windowSize_forward (src dst : offsetPos) (hle : src.pos ≤ dst.pos)
    (hdst : dst.pos < 2 ^ 32) : windowSize src dst = dst.pos - src.pos := by
  unfold windowSize
  omega

theorem windowSize_backward (src dst : offsetPos) (hlt : dst.pos < src.pos)
    (hsrc : src.pos < 2 ^ 32) : windowSize src dst = dst.pos + 2 ^ 32 - src.pos := by
  unfold windowSize
  omega

/-- The fields of the lower entry of a bracket are `uint32` values. -/
theorem scanEntries_lower_lt (w : Nat) (file : List Byte) (lo up : offsetPos)
    (h : scanEntries w ⟨0, 0⟩ (entriesOf file) = .ok (lo, up)) : lo.pos < 2 ^ 32 := by
  obtain ⟨k, _, _, _, hlo⟩ := scanEntries_ok w _ _ _ _ h
  rcases hlo with ⟨_, hlo⟩ | ⟨j, _, hlo⟩
  · rw [hlo]; exact Nat.two_pow_pos 32
  · obtain ⟨c0, c1, c2, c3, c4, c5, c6, c7, _, hlow⟩ := entriesOf_get j file lo hlo
    rw [hlow]
    exact Uint32_lt _ _ _ _

/-! ## Paths -/

theorem extLoop_eq_scan (before : List Byte) :
    ∀ seen : List Byte, extLoop (before.reverse ++ seen) before.length = extScan before seen := by
  induction before with
  | nil => intro seen; rfl
  | cons c before ih =>
    intro seen
    have hpath : (c :: before).reverse ++ seen = before.reverse ++ (c :: seen) := by simp
    have hget : (before.reverse ++ (c :: seen))[before.length]? = some c := by
      rw [List.getElem?_append_right (by simp)]
      simp
    have hdrop : (before.reverse ++ (c :: seen)).drop before.length = c :: seen := by
      rw [List.drop_append_eq_append_drop]
      simp
    rw [hpath, List.length_cons, extLoop, hget, extScan]
    simp only [hdrop, ih (c :: seen)]

theorem Ext_eq_scan (path : List Byte) : Ext path = extScan path.reverse [] := by
  have h := extLoop_eq_scan path.reverse []
  simp only [List.reverse_reverse, List.append_nil, List.length_reverse] at h
  exact h

theorem extScan_eq_nil_iff (before : List Byte) :
    ∀ seen : List Byte,
      extScan before seen = [] ↔ dot ∉ before.takeWhile (fun c => decide (c ≠ sep)) := by
  induction before with
  | nil => intro seen; simp [extScan]
  | cons c before ih =>
    intro seen
    rw [extScan]
    by_cases hs : c = sep
    · simp [hs]
    · by_cases hd : c = dot
      · simp [hs, hd, List.takeWhile_cons]
      · rw [if_neg hs, if_neg hd, ih (c :: seen)]
        have hd2 : ¬ dot = c := fun h => hd h.symm
        simp [List.takeWhile_cons, hs, hd2]

theorem extScan_last_dot (before : List Byte) :
    ∀ seen : List Byte, extScan before seen ≠ [] →
      ∃ stem mid, before.reverse = stem ++ dot :: mid ∧ dot ∉ mid ∧ sep ∉ mid ∧
        extScan before seen = dot :: (mid ++ seen) := by
  induction before with
  | nil => intro seen h; exact absurd rfl h
  | cons c before ih =>
    intro seen h
    rw [extScan] at h ⊢
    by_cases hs : c = sep
    · rw [if_pos hs] at h; exact absurd rfl h
    · rw [if_neg hs] at h ⊢
      by_cases hd : c = dot
      · rw [if_pos hd]
        exact ⟨before.reverse, [], by simp [hd], by simp, by simp, by simp [hd]⟩
      · rw [if_neg hd] at h ⊢
        obtain ⟨stem, mid, hrev, hdot, hsep, hres⟩ := ih (c :: seen) h
        refine ⟨stem, mid ++ [c], ?_, ?_, ?_, ?_⟩
        · rw [List.reverse_cons, hrev]; simp
        · intro hm
          rcases List.mem_append.mp hm with hm | hm
          · exact hdot hm
          · exact hd (List.mem_singleton.mp hm).symm
        · intro hm
          rcases List.mem_append.mp hm with hm | hm
          · exact hsep hm
          · exact hs (List.mem_singleton.mp hm).symm
        · rw [hres]; simp

theorem finalElement_mem (path : List Byte) :
    dot ∈ finalElement path ↔ dot ∈ path.reverse.takeWhile (fun c => decide (c ≠ sep)) := by
  unfold finalElement
  exact List.mem_reverse

theorem TrimSuffix_append (stem suffix : List Byte) :
    TrimSuffix (stem ++ suffix) suffix = stem := by
  unfold TrimSuffix HasSuffix
  simp

theorem HasSuffix_split (s suffix : List Byte) (h : HasSuffix s suffix = true) :
    s = s.take (s.length - suffix.length) ++ suffix := by
  unfold HasSuffix at h
  simp only [Bool.and_eq_true, decide_eq_true_eq, beq_iff_eq] at h
  have h2 := List.take_append_drop (s.length - suffix.length) s
  rw [h.2] at h2
  exact h2.symm

theorem str_index : str ".index" = [46, 105, 110, 100, 101, 120] := by decide

theorem str_log : str ".log" = [46, 108, 111, 103] := by decide

theorem Ext_append_index (stem : List Byte) : Ext (stem ++ str ".index") = str ".index" := by
  rw [Ext_eq_scan, str_index]
  simp [extScan, sep, dot]

theorem Ext_append_log (stem : List Byte) : Ext (stem ++ str ".log") = str ".log" := by
  rw [Ext_eq_scan, str_log]
  simp [extScan, sep, dot]

theorem replaceExtension_append_index (stem extension : List Byte) :
    replaceExtension (stem ++ str ".index") extension = stem ++ extension := by
  unfold replaceExtension
  rw [Ext_append_index, TrimSuffix_append]

theorem replaceExtension_append_log (stem extension : List Byte) :
    replaceExtension (stem ++ str ".log") extension = stem ++ extension := by
  unfold replaceExtension
  rw [Ext_append_log, TrimSuffix_append]

/-! ## The index search -/

/-- C1, as stated, fails on its own scenario: on the valid index with records
`(0,0)`, `(100,50)`, `(250,120)` and wanted offset `150`, which is below the
maximum indexed offset, `getPosFromIndex` does not return the bracket
`((100,50),(250,120))` but fails with the zero-offset error. -/
theorem getPosFromIndex_zero_head_rejected :
    entriesOf indexZeroHead = [⟨0, 0⟩, ⟨100, 50⟩, ⟨250, 120⟩] ∧
    validIndex (entriesOf indexZeroHead) ∧
    (∃ e ∈ entriesOf indexZeroHead, 150 < e.offset) ∧
    getPosFromIndex indexZeroHead 150 = .error .zeroOffset := by
  decide

/-- C1 (amended): for every index file whose records are non-decreasing in
both fields and every wanted offset strictly below the maximum indexed offset,
`getPosFromIndex` succeeds with a bracket `lower.offset ≤ wanted < upper.offset`
when the first record has a non-zero offset, and fails with the zero-offset
error when the first record has offset `0`. -/
theorem getPosFromIndex_bracket_of_valid (file : List Byte) (wanted : Nat)
    (hvalid : validIndex (entriesOf file))
    (hmax : ∃ e ∈ entriesOf file, wanted < e.offset) :
    ((∀ a ∈ (entriesOf file).head?, a.offset ≠ 0) →
      ∃ lower upper, getPosFromIndex file wanted = .ok (lower, upper) ∧
        lower.offset ≤ wanted ∧ wanted < upper.offset) ∧
    ((∃ a ∈ (entriesOf file).head?, a.offset = 0) →
      getPosFromIndex file wanted = .error .zeroOffset) := by
  rw [getPosFromIndex_eq_scan]
  constructor
  · intro hhead
    have hnz : ∀ e ∈ entriesOf file, e.offset ≠ 0 := by
      intro e he
      cases hes : entriesOf file with
      | nil => rw [hes] at he; simp at he
      | cons a es =>
        have ha : (entriesOf file).head? = some a := by rw [hes]; rfl
        have h1 := hhead a ha
        have h2 := validIndex_head_le _ hvalid a ha e he
        omega
    obtain ⟨lo, up, hok⟩ := scanEntries_succeeds wanted _ ⟨0, 0⟩ hnz hmax
    obtain ⟨k, _, hup, hbefore, hlo⟩ := scanEntries_ok wanted _ _ _ _ hok
    refine ⟨lo, up, hok, ?_, hup⟩
    rcases hlo with ⟨_, hlo⟩ | ⟨j, hj, hlo⟩
    · rw [hlo]; exact Nat.zero_le _
    · exact hbefore j (by omega) lo hlo
  · rintro ⟨a, ha, ha0⟩
    exact scanEntries_zero wanted _ _ 0 a (by simpa [List.head?_eq_getElem?] using ha) ha0
      (fun j hj => absurd hj (Nat.not_lt_zero j))

/-- C1 (amended), on the records `(100,50)`, `(250,120)` with wanted offset
`150`: the bracket is `((100,50),(250,120))`. -/
theorem getPosFromIndex_bracket_of_valid_witness :
    getPosFromIndex indexNoZero 150 = .ok (⟨100, 50⟩, ⟨250, 120⟩) ∧
    (∃ lower upper, getPosFromIndex indexNoZero 150 = .ok (lower, upper) ∧
      lower.offset ≤ 150 ∧ 150 < upper.offset) ∧
    getPosFromIndex indexZeroHead 150 = .error .zeroOffset :=
  ⟨by decide,
   (getPosFromIndex_bracket_of_valid indexNoZero 150 (by decide) (by decide)).1 (by decide),
   (getPosFromIndex_bracket_of_valid indexZeroHead 150 (by decide) (by decide)).2 (by decide)⟩

/-- C2: whenever `getPosFromIndex` succeeds with `(lower, upper)`, on any file
content, `upper` is the first record in file order whose offset is strictly
greater than the wanted offset, `lower` is the record immediately before it,
or the zero entry `(0,0)` when `upper` is the first record, and
`lower.offset ≤ wanted < upper.offset`. -/
theorem getPosFromIndex_first_greater (file : List Byte) (wanted : Nat)
    (lower upper : offsetPos)
    (h : getPosFromIndex file wanted = .ok (lower, upper)) :
    ∃ k, (entriesOf file)[k]? = some upper ∧
      (∀ j, j < k → ∀ e, (entriesOf file)[j]? = some e → e.offset ≤ wanted) ∧
      ((k = 0 ∧ lower = ⟨0, 0⟩) ∨ ∃ j, k = j + 1 ∧ (entriesOf file)[j]? = some lower) ∧
      lower.offset ≤ wanted ∧ wanted < upper.offset := by
  rw [getPosFromIndex_eq_scan] at h
  obtain ⟨k, hk, hup, hbefore, hlo⟩ := scanEntries_ok wanted _ _ _ _ h
  refine ⟨k, hk, hbefore, hlo, ?_, hup⟩
  rcases hlo with ⟨_, hlo⟩ | ⟨j, hj, hlo⟩
  · rw [hlo]; exact Nat.zero_le _
  · exact hbefore j (by omega) lower hlo

/-- C2 on an unsorted index: records `(100,50)`, `(50,70)`, `(250,120)`,
`(200,130)` and wanted offset `150` give the bracket `((50,70),(250,120))`. -/
theorem getPosFromIndex_first_greater_witness :
    getPosFromIndex indexUnsorted 150 = .ok (⟨50, 70⟩, ⟨250, 120⟩) ∧
    ∃ k, (entriesOf indexUnsorted)[k]? = some ⟨250, 120⟩ ∧
      (∀ j, j < k → ∀ e, (entriesOf indexUnsorted)[j]? = some e → e.offset ≤ 150) ∧
      ((k = 0 ∧ (⟨50, 70⟩ : offsetPos) = ⟨0, 0⟩) ∨
        ∃ j, k = j + 1 ∧ (entriesOf indexUnsorted)[j]? = some ⟨50, 70⟩) ∧
      (⟨50, 70⟩ : offsetPos).offset ≤ 150 ∧ 150 < (⟨250, 120⟩ : offsetPos).offset :=
  ⟨by decide, getPosFromIndex_first_greater indexUnsorted 150 ⟨50, 70⟩ ⟨250, 120⟩ (by decide)⟩

/-- C5, as stated, fails on its own scenario: on the valid index with records
`(0,0)`, `(100,50)`, `(250,120)` and wanted offset `300`, which is beyond the
last indexed offset, `getPosFromIndex` fails with the zero-offset error and
not with the end-of-file error. -/
theorem getPosFromIndex_zero_head_not_eof :
    validIndex (entriesOf indexZeroHead) ∧
    (∀ l ∈ (entriesOf indexZeroHead).getLast?, l.offset ≤ 300) ∧
    getPosFromIndex indexZeroHead 300 = .error .zeroOffset ∧
    getPosFromIndex indexZeroHead 300 ≠ .error .eofNotFound := by
  decide

/-- C5 (amended): for every index file whose records are non-decreasing in
both fields and every wanted offset at or beyond the last indexed offset,
`getPosFromIndex` fails with the end-of-file error when the index is empty or
its first record has a non-zero offset, and with the zero-offset error when
the first record has offset `0`. -/
theorem getPosFromIndex_out_of_range (file : List Byte) (wanted : Nat)
    (hvalid : validIndex (entriesOf file))
    (hlast : ∀ l ∈ (entriesOf file).getLast?, l.offset ≤ wanted) :
    ((∀ a ∈ (entriesOf file).head?, a.offset ≠ 0) →
      getPosFromIndex file wanted = .error .eofNotFound) ∧
    ((∃ a ∈ (entriesOf file).head?, a.offset = 0) →
      getPosFromIndex file wanted = .error .zeroOffset) := by
  rw [getPosFromIndex_eq_scan]
  constructor
  · intro hhead
    apply scanEntries_exhausted
    intro e he
    cases hes : entriesOf file with
    | nil => rw [hes] at he; simp at he
    | cons a es =>
      have ha : (entriesOf file).head? = some a := by rw [hes]; rfl
      have h1 := hhead a ha
      have h2 := validIndex_head_le _ hvalid a ha e he
      obtain ⟨l, hl⟩ : ∃ l, (entriesOf file).getLast? = some l := by
        rw [hes]; exact ⟨_, List.getLast?_cons⟩
      have h3 := validIndex_le_last _ hvalid l hl e he
      have h4 := hlast l hl
      omega
  · rintro ⟨a, ha, ha0⟩
    exact scanEntries_zero wanted _ _ 0 a (by simpa [List.head?_eq_getElem?] using ha) ha0
      (fun j hj => absurd hj (Nat.not_lt_zero j))

/-- C5 (amended), on the records `(100,50)`, `(250,120)` with wanted offset
`300`, and on the records `(0,0)`, `(100,50)`, `(250,120)`. -/
theorem getPosFromIndex_out_of_range_witness :
    getPosFromIndex indexNoZero 300 = .error .eofNotFound ∧
    getPosFromIndex indexZeroHead 300 = .error .zeroOffset :=
  ⟨(getPosFromIndex_out_of_range indexNoZero 300 (by decide) (by decide)).1 (by decide),
   (getPosFromIndex_out_of_range indexZeroHead 300 (by decide) (by decide)).2 (by decide)⟩

/-- C6: if some record at sequence position `k ≥ 1` has offset `0` and no
earlier record has an offset greater than the wanted offset, then
`getPosFromIndex` fails with the zero-offset error. -/
theorem getPosFromIndex_zero_slot (file : List Byte) (wanted k : Nat) (z : offsetPos)
    (hpos : 1 ≤ k)
    (hk : (entriesOf file)[k]? = some z) (hz : z.offset = 0)
    (hbefore : ∀ j, j < k → ∀ e, (entriesOf file)[j]? = some e → e.offset ≤ wanted) :
    getPosFromIndex file wanted = .error .zeroOffset := by
  have _ := hpos
  rw [getPosFromIndex_eq_scan]
  exact scanEntries_zero wanted _ _ k z hk hz hbefore

/-- C6 on the records `(0,0)`, `(0,0)` with wanted offset `5`. -/
theorem getPosFromIndex_zero_slot_witness :
    entriesOf indexTwoZero = [⟨0, 0⟩, ⟨0, 0⟩] ∧
    getPosFromIndex indexTwoZero 5 = .error .zeroOffset :=
  ⟨by decide,
   getPosFromIndex_zero_slot indexTwoZero 5 1 ⟨0, 0⟩ (by decide) (by decide) (by decide)
     (by
      intro j hj e he
      have hj0 : j = 0 := by omega
      subst hj0
      have h0 : (entriesOf indexTwoZero)[0]? = some ⟨0, 0⟩ := by decide
      rw [h0] at he
      injection he with he
      subst he
      decide)⟩

/-- C7: every entry returned by `getPosFromIndex` that was read from the file
is the big-endian decoding of the eight bytes `b0 .. b7` of a record, the
records lying back to back from byte 0: the upper entry is record `k`, the
lower entry is record `k - 1`, or the zero entry when `k = 0`. -/
theorem getPosFromIndex_big_endian (file : List Byte) (wanted : Nat)
    (lower upper : offsetPos)
    (h : getPosFromIndex file wanted = .ok (lower, upper)) :
    ∃ k b0 b1 b2 b3 b4 b5 b6 b7,
      (file.drop (8 * k)).take 8 = [b0, b1, b2, b3, b4, b5, b6, b7] ∧
      upper.offset = b0.val * 2 ^ 24 + b1.val * 2 ^ 16 + b2.val * 2 ^ 8 + b3.val ∧
      upper.pos = b4.val * 2 ^ 24 + b5.val * 2 ^ 16 + b6.val * 2 ^ 8 + b7.val ∧
      ((k = 0 ∧ lower = ⟨0, 0⟩) ∨
        ∃ j c0 c1 c2 c3 c4 c5 c6 c7, k = j + 1 ∧
          (file.drop (8 * j)).take 8 = [c0, c1, c2, c3, c4, c5, c6, c7] ∧
          lower.offset = c0.val * 2 ^ 24 + c1.val * 2 ^ 16 + c2.val * 2 ^ 8 + c3.val ∧
          lower.pos = c4.val * 2 ^ 24 + c5.val * 2 ^ 16 + c6.val * 2 ^ 8 + c7.val) := by
  rw [getPosFromIndex_eq_scan] at h
  obtain ⟨k, hk, _, _, hlo⟩ := scanEntries_ok wanted _ _ _ _ h
  obtain ⟨b0, b1, b2, b3, b4, b5, b6, b7, hb, hup⟩ := entriesOf_get k file upper hk
  refine ⟨k, b0, b1, b2, b3, b4, b5, b6, b7, hb, ?_, ?_, ?_⟩
  · rw [hup]; exact Uint32_eq _ _ _ _
  · rw [hup]; exact Uint32_eq _ _ _ _
  · rcases hlo with hlo | ⟨j, hj, hlo⟩
    · exact Or.inl hlo
    · obtain ⟨c0, c1, c2, c3, c4, c5, c6, c7, hc, hlow⟩ := entriesOf_get j file lower hlo
      refine Or.inr ⟨j, c0, c1, c2, c3, c4, c5, c6, c7, hj, hc, ?_, ?_⟩
      · rw [hlow]; exact Uint32_eq _ _ _ _
      · rw [hlow]; exact Uint32_eq _ _ _ _

/-- C7 on the bytes `00 00 01 02 00 00 03 04 00 01 02 03 04 05 06 07` with
wanted offset `300`: the bracket is `((258,772),(66051,67438087))`. -/
theorem getPosFromIndex_big_endian_witness :
    getPosFromIndex indexWide 300 = .ok (⟨258, 772⟩, ⟨66051, 67438087⟩) ∧
    ∃ k b0 b1 b2 b3 b4 b5 b6 b7,
      (indexWide.drop (8 * k)).take 8 = [b0, b1, b2, b3, b4, b5, b6, b7] ∧
      (66051 : Nat) = b0.val * 2 ^ 24 + b1.val * 2 ^ 16 + b2.val * 2 ^ 8 + b3.val ∧
      (67438087 : Nat) = b4.val * 2 ^ 24 + b5.val * 2 ^ 16 + b6.val * 2 ^ 8 + b7.val ∧
      ((k = 0 ∧ (⟨258, 772⟩ : offsetPos) = ⟨0, 0⟩) ∨
        ∃ j c0 c1 c2 c3 c4 c5 c6 c7, k = j + 1 ∧
          (indexWide.drop (8 * j)).take 8 = [c0, c1, c2, c3, c4, c5, c6, c7] ∧
          (258 : Nat) = c0.val * 2 ^ 24 + c1.val * 2 ^ 16 + c2.val * 2 ^ 8 + c3.val ∧
          (772 : Nat) = c4.val * 2 ^ 24 + c5.val * 2 ^ 16 + c6.val * 2 ^ 8 + c7.val) :=
  ⟨by decide, getPosFromIndex_big_endian indexWide 300 ⟨258, 772⟩ ⟨66051, 67438087⟩ (by decide)⟩

/-- C8: a final chunk shorter than eight bytes is end of stream:
`getPosFromIndex` gives the same result on a file as on its longest prefix
whose length is a multiple of 8, and on the empty file it fails with the
end-of-file error for every wanted offset. -/
theorem getPosFromIndex_short_chunk :
    (∀ (file : List Byte) (wanted : Nat),
      getPosFromIndex file wanted
        = getPosFromIndex (file.take (8 * (file.length / 8))) wanted) ∧
    (∀ wanted : Nat, getPosFromIndex [] wanted = .error .eofNotFound) := by
  constructor
  · intro file wanted
    rw [getPosFromIndex_eq_scan, getPosFromIndex_eq_scan, entriesOf_truncate]
  · intro wanted
    rfl

/-! ## The window extraction -/

/-- C3 is broken by the code on windows above `maxRW = 2 ^ 30` bytes: on the
index with records `(100,0)`, `(250,1073741825)`, wanted offset `150` and a
segment of `1073741925` bytes, the bracket is `((100,0),(250,1073741825))`,
all `1073741825` bytes of the window are present in the segment, the single
`Read` delivers `1073741824` of them and the lookup ends with the short-read
error instead of the window. -/
theorem readLogFromIndex_large_window_short_read :
    getPosFromIndex indexGiB 150 = .ok (⟨100, 0⟩, ⟨250, 1073741825⟩) ∧
    windowSize ⟨100, 0⟩ ⟨250, 1073741825⟩ = 1073741825 ∧
    segmentGiB.length = 1073741925 ∧
    1073741825 ≤ segmentGiB.length - 0 ∧
    (readAt segmentGiB 0 1073741825).2 = 1073741824 ∧
    extractWindow segmentGiB ⟨100, 0⟩ ⟨250, 1073741825⟩ = .error .shortRead ∧
    readLogFromIndex indexGiB segmentGiB 150 = .error .shortRead := by
  have hidx : getPosFromIndex indexGiB 150 = .ok (⟨100, 0⟩, ⟨250, 1073741825⟩) := by decide
  have hsize : windowSize ⟨100, 0⟩ ⟨250, 1073741825⟩ = 1073741825 := by decide
  have hlen : segmentGiB.length = 1073741925 := List.length_replicate _ _
  have hcap : maxRW < windowSize ⟨100, 0⟩ ⟨250, 1073741825⟩ := by rw [hsize]; decide
  have hext : extractWindow segmentGiB ⟨100, 0⟩ ⟨250, 1073741825⟩ = .error .shortRead := by
    rw [extractWindow_eq, if_neg (fun hc => absurd hc.1 (Nat.not_le_of_lt hcap))]
  refine ⟨hidx, hsize, hlen, ?_, ?_, hext, ?_⟩
  · rw [hlen]; decide
  · unfold readAt
    simp only [List.length_take, List.length_drop, hlen]
    decide
  · unfold readLogFromIndex
    rw [hidx]
    exact hext

/-- C4, as stated, fails: on the index with records `(100,100)`, `(250,80)`
and wanted offset `150` the search returns the bracket with
`upper.pos = 80 < lower.pos = 100` without error, the window size is the
wrapped value `2 ^ 32 - 20 = 4294967276`, and on a segment of 200 bytes the
lookup ends with the short-read error of the read of that length. -/
theorem readLogFromIndex_backwards_wraps :
    getPosFromIndex indexBackwards 150 = .ok (⟨100, 100⟩, ⟨250, 80⟩) ∧
    windowSize ⟨100, 100⟩ ⟨250, 80⟩ = 4294967276 ∧
    readAt segmentSmall 100 4294967276
      = (segmentSmall.drop 100 ++ List.replicate 4294967176 0, 100) ∧
    readLogFromIndex indexBackwards segmentSmall 150 = .error .shortRead := by
  refine ⟨by decide, by decide, ?_, by decide⟩
  unfold readAt
  have hlen : segmentSmall.length = 200 := List.length_replicate _ _
  have htake : (segmentSmall.drop 100).take (min 4294967276 maxRW)
      = segmentSmall.drop 100 := by
    apply List.take_of_length_le
    rw [List.length_drop, hlen]
    decide
  have hgot : (segmentSmall.drop 100).length = 100 := by
    rw [List.length_drop, hlen]
  simp only [htake, hgot]

/-- C4 (amended): for every bracket `(lower, upper)` produced by the index
search with `upper.pos < lower.pos`, the window size is the wrapped value
`upper.pos + 2 ^ 32 - lower.pos`, and on every segment shorter than
`upper.pos + 2 ^ 32` bytes (so on every segment shorter than `2 ^ 32` bytes) the
lookup fails with the short-read error. -/
theorem readLogFromIndex_backwards (index segment : List Byte) (wanted : Nat)
    (lower upper : offsetPos)
    (h : getPosFromIndex index wanted = .ok (lower, upper))
    (hback : upper.pos < lower.pos)
    (hseg : segment.length < upper.pos + 2 ^ 32) :
    windowSize lower upper = upper.pos + 2 ^ 32 - lower.pos ∧
    readLogFromIndex index segment wanted = .error .shortRead := by
  have hlo : lower.pos < 2 ^ 32 :=
    scanEntries_lower_lt wanted index lower upper (by rw [← getPosFromIndex_eq_scan]; exact h)
  have hsize := windowSize_backward lower upper hback hlo
  have hread : readLogFromIndex index segment wanted = extractWindow segment lower upper := by
    unfold readLogFromIndex
    rw [h]
  rw [hread, extractWindow_eq, hsize]
  refine ⟨rfl, ?_⟩
  rw [if_neg (fun hc => absurd hc.2 (by omega))]

/-- C4 (amended) on the records `(100,100)`, `(250,80)`, wanted offset `150`
and a segment of 200 bytes: the lookup ends with the short-read error. -/
theorem readLogFromIndex_backwards_witness :
    windowSize ⟨100, 100⟩ ⟨250, 80⟩ = 80 + 2 ^ 32 - 100 ∧
    readLogFromIndex indexBackwards segmentSmall 150 = .error .shortRead :=
  readLogFromIndex_backwards indexBackwards segmentSmall 150 ⟨100, 100⟩ ⟨250, 80⟩
    (by decide) (by decide) (by simp only [segmentSmall, List.length_replicate]; decide)

/-! ## The sibling path -/

/-- C9: `replaceExtension` is a round trip on suffix swap: for every path
ending in `.index`, replacing the extension by `.log` and then by `.index`
gives the path back, and likewise for every path ending in `.log`; the first
step keeps everything before the suffix (directory and base name). -/
theorem replaceExtension_round_trip (path : List Byte) :
    (HasSuffix path (str ".index") = true →
      replaceExtension (replaceExtension path (str ".log")) (str ".index") = path ∧
      ∃ stem, path = stem ++ str ".index" ∧
        replaceExtension path (str ".log") = stem ++ str ".log") ∧
    (HasSuffix path (str ".log") = true →
      replaceExtension (replaceExtension path (str ".index")) (str ".log") = path ∧
      ∃ stem, path = stem ++ str ".log" ∧
        replaceExtension path (str ".index") = stem ++ str ".index") := by
  constructor
  · intro h
    have hsplit := HasSuffix_split path _ h
    generalize path.take (path.length - (str ".index").length) = stem at hsplit
    subst hsplit
    rw [replaceExtension_append_index, replaceExtension_append_log]
    exact ⟨rfl, stem, rfl, rfl⟩
  · intro h
    have hsplit := HasSuffix_split path _ h
    generalize path.take (path.length - (str ".log").length) = stem at hsplit
    subst hsplit
    rw [replaceExtension_append_log, replaceExtension_append_index]
    exact ⟨rfl, stem, rfl, rfl⟩

/-- C9 on the paths `/tmp/kafka.d/topic1-0/00000000000000000000.index` and
`/tmp/kafka.d/topic1-0/00000000000000000000.log`. -/
theorem replaceExtension_round_trip_witness :
    replaceExtension (str "/tmp/kafka.d/topic1-0/00000000000000000000.index") (str ".log")
      = str "/tmp/kafka.d/topic1-0/00000000000000000000.log" ∧
    replaceExtension
        (replaceExtension (str "/tmp/kafka.d/topic1-0/00000000000000000000.index") (str ".log"))
        (str ".index")
      = str "/tmp/kafka.d/topic1-0/00000000000000000000.index" ∧
    replaceExtension
        (replaceExtension (str "/tmp/kafka.d/topic1-0/00000000000000000000.log") (str ".index"))
        (str ".log")
      = str "/tmp/kafka.d/topic1-0/00000000000000000000.log" :=
  ⟨by decide,
   ((replaceExtension_round_trip
      (str "/tmp/kafka.d/topic1-0/00000000000000000000.index")).1 (by decide)).1,
   ((replaceExtension_round_trip
      (str "/tmp/kafka.d/topic1-0/00000000000000000000.log")).2 (by decide)).1⟩

/-- C10, as stated, fails: the path `/tmp/kafka.d/topic1-0/segment` has no dot
in its final element, and `replaceExtension` returns a path for it, namely
`/tmp/kafka.d/topic1-0/segment.log`. -/
theorem replaceExtension_suffixless_returns :
    dot ∉ finalElement (str "/tmp/kafka.d/topic1-0/segment") ∧
    Ext (str "/tmp/kafka.d/topic1-0/segment") = [] ∧
    replaceExtension (str "/tmp/kafka.d/topic1-0/segment") (str ".log")
      = str "/tmp/kafka.d/topic1-0/segment.log" := by
  decide

/-- C10 (amended): `replaceExtension` returns a path for every input and has no
failure: when the final path element has no dot it returns the input with the
extension appended, and otherwise it returns the input with its suffix from
the last dot of the final element on replaced by the extension: the input is
`stem ++ '.' :: rest` with neither a dot nor a separator in `rest`, and the
result is `stem ++ extension`. -/
theorem replaceExtension_total (filename extension : List Byte) :
    (dot ∉ finalElement filename →
      Ext filename = [] ∧ replaceExtension filename extension = filename ++ extension) ∧
    (dot ∈ finalElement filename →
      ∃ stem rest, filename = stem ++ dot :: rest ∧ dot ∉ rest ∧ sep ∉ rest ∧
        Ext filename = dot :: rest ∧
        replaceExtension filename extension = stem ++ extension) := by
  constructor
  · intro h
    have hext : Ext filename = [] := by
      rw [Ext_eq_scan, extScan_eq_nil_iff]
      exact fun hm => h ((finalElement_mem filename).mpr hm)
    refine ⟨hext, ?_⟩
    unfold replaceExtension
    rw [hext]
    have := TrimSuffix_append filename []
    rw [List.append_nil] at this
    rw [this]
  · intro h
    have hne : extScan filename.reverse [] ≠ [] := by
      intro hnil
      exact ((extScan_eq_nil_iff _ _).mp hnil) ((finalElement_mem filename).mp h)
    obtain ⟨stem, rest, hrev, hdot, hsep, hres⟩ := extScan_last_dot _ _ hne
    rw [List.reverse_reverse] at hrev
    rw [List.append_nil, ← Ext_eq_scan] at hres
    refine ⟨stem, rest, hrev, hdot, hsep, hres, ?_⟩
    unfold replaceExtension
    have htrim : TrimSuffix filename (Ext filename) = stem := by
      have := TrimSuffix_append stem (dot :: rest)
      rw [← hrev, ← hres] at this
      exact this
    rw [htrim]

/-- C10 (amended) on the paths `/tmp/kafka.d/topic1-0/segment` and
`/tmp/kafka.d/topic1-0/segment.tar.gz`: the first gets `.log` appended, the
second becomes `/tmp/kafka.d/topic1-0/segment.tar.log`. -/
theorem replaceExtension_total_witness :
    replaceExtension (str "/tmp/kafka.d/topic1-0/segment") (str ".log")
      = str "/tmp/kafka.d/topic1-0/segment" ++ str ".log" ∧
    replaceExtension (str "/tmp/kafka.d/topic1-0/segment.tar.gz") (str ".log")
      = str "/tmp/kafka.d/topic1-0/segment.tar.log" ∧
    ∃ stem rest, str "/tmp/kafka.d/topic1-0/segment.tar.gz" = stem ++ dot :: rest ∧
      dot ∉ rest ∧ sep ∉ rest ∧
      Ext (str "/tmp/kafka.d/topic1-0/segment.tar.gz") = dot :: rest ∧
      replaceExtension (str "/tmp/kafka.d/topic1-0/segment.tar.gz") (str ".log")
        = stem ++ str ".log" :=
  ⟨((replaceExtension_total (str "/tmp/kafka.d/topic1-0/segment") (str ".log")).1
      (by decide)).2,
   by decide,
   (replaceExtension_total (str "/tmp/kafka.d/topic1-0/segment.tar.gz") (str ".log")).2
      (by decide)⟩

end Klog
